import Mathlib

/-!
Shallow embedding of the `encrypted-store` repository's change-classification
and encryption layer, together with proofs of the specification claims.

Strings from the TypeScript source are modelled as `List Char`; byte arrays
(`Uint8Array`) as `List (Fin 256)`.  External collaborators (the PouchDB /
Fireproof database, the WebCrypto AES-GCM primitive, `TextEncoder`,
`JSON.stringify`/`JSON.parse`) are passed in as explicit function parameters
(oracles), exactly at the narrow interfaces the source consumes them through.
-/

namespace EncStore

/-- Embedding of `parseFullId` (src/unnamed/part_000 lines 691-695, and the
throwing variant in src/src/encryptedStore.ts lines 352-361): find the first
occurrence of an underscore (`indexOf("_")`); if there is none the key does
not decode; otherwise the table is everything before it (`slice(0, idx)`) and
the id everything after it (`slice(idx + 1)`). -/
def parseFullId : List Char → Option (List Char × List Char)
  | [] => none
  | c :: rest =>
    if c = '_' then some ([], rest)
    else (parseFullId rest).map (fun p => (c :: p.1, p.2))

/-- Embedding of the composite-key construction used by `put`, `get` and
`delete` in both variants: the template literal `${table}_${id}`. -/
def encodeFullId (table id : List Char) : List Char :=
  table ++ '_' :: id

theorem parseFullId_cons_ne (c : Char) (rest : List Char) (h : c ≠ '_') :
    parseFullId (c :: rest) = (parseFullId rest).map (fun p => (c :: p.1, p.2)) := by
  simp [parseFullId, h]

theorem parseFullId_encode (table id : List Char) (h : '_' ∉ table) :
    parseFullId (encodeFullId table id) = some (table, id) := by
  induction table with
  | nil => simp [encodeFullId, parseFullId]
  | cons c t ih =>
    have hc : c ≠ '_' := fun hc => h (hc ▸ List.mem_cons_self c t)
    have ht : '_' ∉ t := fun hm => h (List.mem_cons_of_mem c hm)
    simp only [encodeFullId, List.cons_append] at *
    rw [parseFullId_cons_ne c _ hc, ih ht]
    rfl

theorem parseFullId_eq_none_iff (k : List Char) :
    parseFullId k = none ↔ '_' ∉ k := by
  induction k with
  | nil => simp [parseFullId]
  | cons c rest ih =>
    by_cases hc : c = '_'
    · subst hc
      simp [parseFullId]
    · rw [parseFullId_cons_ne c rest hc]
      simp only [Option.map_eq_none', ih, List.mem_cons]
      constructor
      · intro h hm
        rcases hm with hm | hm
        · exact hc hm.symm
        · exact h hm
      · intro h hm
        exact h (Or.inr hm)

/-- C7: the identity codec is invertible on its intended domain.  For every
table containing no underscore and every id, decoding the composite key
`table + "_" + id` yields `(table, id)` back, and decoding fails exactly when
the key contains no underscore. -/
theorem C7_identity_codec :
    (∀ table id : List Char, '_' ∉ table →
      parseFullId (encodeFullId table id) = some (table, id)) ∧
    (∀ k : List Char, parseFullId k = none ↔ '_' ∉ k) :=
  ⟨parseFullId_encode, parseFullId_eq_none_iff⟩

/-- Witness for C7 at the concrete key `users_alice` and the separator-free
key `abc`. -/
theorem C7_identity_codec_witness :
    parseFullId (encodeFullId ['u', 's', 'e', 'r', 's'] ['a', 'l', 'i', 'c', 'e']) =
      some (['u', 's', 'e', 'r', 's'], ['a', 'l', 'i', 'c', 'e']) ∧
    (parseFullId ['a', 'b', 'c'] = none ↔ '_' ∉ ['a', 'b', 'c']) :=
  ⟨C7_identity_codec.1 _ _ (by decide), C7_identity_codec.2 _⟩

/-! ### EncryptionHelper wire format (src/unnamed/part_000 lines 1454-1504)

`toHexString`/`fromHexString` and the `hex(iv) | hex(ciphertext)` framing are
implemented in the source; the AES-GCM primitive itself, the UTF-8
`TextEncoder`/`TextDecoder` pair and the random nonce draw are external
(WebCrypto) and appear as parameters.  A `Uint8Array` element is a `Fin 256`. -/

/-- A byte as stored in a `Uint8Array`. -/
abbrev Byte := Fin 256

/-- The lowercase base-16 digit alphabet used by `Number.toString(16)`. -/
def hexAlphabet : List Char := "0123456789abcdef".toList

/-- One lowercase hex digit, as produced by `byte.toString(16)`.  Only ever
applied to values below 16 (the high and low nibble of a byte). -/
def hexDigit (n : Nat) : Char := hexAlphabet.getD n 'f'

/-- `byte.toString(16).padStart(2, "0")`: two hex digits per byte. -/
def toHexByte (b : Byte) : List Char :=
  [hexDigit (b.val / 16), hexDigit (b.val % 16)]

/-- Embedding of `EncryptionHelper.toHexString`: a `reduce` (left fold) that
appends the two-digit rendering of each byte to the accumulator string. -/
def toHexString (bs : List Byte) : List Char :=
  bs.foldl (fun acc b => acc ++ toHexByte b) []

/-- Value of a single lowercase hex digit character, `none` on a character
`parseInt(-, 16)` does not accept.  (The source only ever feeds back its own
lowercase output, so uppercase digits never arise on the round-trip path.) -/
def hexVal (c : Char) : Option Nat :=
  hexAlphabet.indexOf? c

/-- The chunking performed by `hexString.match(/.{1,2}/g)`: runs of two
characters, with a final singleton when the length is odd. -/
def chunkPairs : List Char → List (List Char)
  | [] => []
  | [c] => [[c]]
  | c1 :: c2 :: rest => [c1, c2] :: chunkPairs rest

/-- `parseInt(chunk, 16)` of a one- or two-character chunk, followed by the
`Uint8Array` element coercion (`NaN` becomes 0; `parseInt` stops at the first
invalid character). -/
def hexPairVal (chunk : List Char) : Nat :=
  match chunk with
  | [c1, c2] =>
    match hexVal c1, hexVal c2 with
    | some a, some b => 16 * a + b
    | some a, none => a
    | none, _ => 0
  | [c] => (hexVal c).getD 0
  | _ => 0

/-- Embedding of `EncryptionHelper.fromHexString`: chunk into pairs, parse
each pair, store into a `Uint8Array` (values reduced mod 256). -/
def fromHexString (s : List Char) : List Byte :=
  (chunkPairs s).map (fun ch => (⟨hexPairVal ch % 256, Nat.mod_lt _ (by norm_num)⟩ : Byte))

/-- `data.split("|")` on a character list. -/
def splitOnBar : List Char → List (List Char)
  | [] => [[]]
  | c :: rest =>
    if c = '|' then [] :: splitOnBar rest
    else
      match splitOnBar rest with
      | [] => [[c]]
      | h :: t => (c :: h) :: t

/-- Embedding of `EncryptionHelper.encrypt` (src/unnamed/part_000 lines
1467-1481): UTF-8-encode the payload, AES-GCM-encrypt it under the instance
key with the freshly drawn 12-byte `iv`, and emit `hex(iv) + "|" +
hex(ciphertext)`.  `encPrim` is the WebCrypto `subtle.encrypt` call with the
instance key fixed; `utf8enc` is `TextEncoder.encode`; the random draw is the
explicit `iv` argument. -/
def encrypt (encPrim : List Byte → List Byte → List Byte)
    (utf8enc : List Char → List Byte) (iv : List Byte) (data : List Char) : List Char :=
  toHexString iv ++ '|' :: toHexString (encPrim iv (utf8enc data))

/-- Embedding of `EncryptionHelper.decrypt` (src/unnamed/part_000 lines
1483-1503): split on `|`, hex-decode the first two parts, AES-GCM-decrypt and
authenticate; any primitive failure (or a missing ciphertext half) surfaces
as a `DecryptionError`, i.e. `none`.  `decPrim` is `subtle.decrypt` with the
instance key fixed; `utf8dec` is `TextDecoder.decode`. -/
def decrypt (decPrim : List Byte → List Byte → Option (List Byte))
    (utf8dec : List Byte → List Char) (data : List Char) : Option (List Char) :=
  match (splitOnBar data).map fromHexString with
  | iv :: ct :: _ => (decPrim iv ct).map utf8dec
  | _ => none

theorem toHexString_append_acc (bs : List Byte) (s : List Char) :
    List.foldl (fun acc b => acc ++ toHexByte b) s bs = s ++ toHexString bs := by
  induction bs generalizing s with
  | nil => simp [toHexString]
  | cons b bs ih =>
    simp only [toHexString, List.foldl_cons, List.nil_append]
    rw [ih, ih (toHexByte b), List.append_assoc]

theorem toHexString_cons (b : Byte) (bs : List Byte) :
    toHexString (b :: bs) = toHexByte b ++ toHexString bs := by
  simp only [toHexString, List.foldl_cons, List.nil_append]
  exact toHexString_append_acc bs (toHexByte b)

theorem hexDigit_ne_bar (n : Nat) : hexDigit n ≠ '|' := by
  by_cases hn : n < 16
  · interval_cases n <;> decide
  · unfold hexDigit
    rw [List.getD_eq_default]
    · decide
    · simpa [hexAlphabet] using Nat.le_of_not_lt hn

theorem bar_not_mem_toHexByte (b : Byte) : '|' ∉ toHexByte b := by
  intro h
  simp only [toHexByte, List.mem_cons, List.not_mem_nil, or_false] at h
  rcases h with h | h
  · exact hexDigit_ne_bar _ h.symm
  · exact hexDigit_ne_bar _ h.symm

theorem bar_not_mem_toHexString (bs : List Byte) : '|' ∉ toHexString bs := by
  induction bs with
  | nil => simp [toHexString]
  | cons b bs ih =>
    rw [toHexString_cons]
    intro hmem
    rcases List.mem_append.mp hmem with h | h
    · exact bar_not_mem_toHexByte b h
    · exact ih h

theorem hexVal_hexDigit (d : Nat) (h : d < 16) : hexVal (hexDigit d) = some d := by
  interval_cases d <;> decide

theorem hexPairVal_toHexByte (b : Byte) : hexPairVal (toHexByte b) = b.val := by
  have hhi : b.val / 16 < 16 := Nat.div_lt_of_lt_mul (by omega)
  have hlo : b.val % 16 < 16 := Nat.mod_lt _ (by norm_num)
  simp only [toHexByte, hexPairVal, hexVal_hexDigit _ hhi, hexVal_hexDigit _ hlo]
  exact Nat.div_add_mod b.val 16

theorem fromHexString_toHexString (bs : List Byte) :
    fromHexString (toHexString bs) = bs := by
  induction bs with
  | nil => rfl
  | cons b bs ih =>
    rw [toHexString_cons]
    show fromHexString (hexDigit (b.val / 16) :: hexDigit (b.val % 16) :: toHexString bs) = b :: bs
    simp only [fromHexString, chunkPairs, List.map_cons]
    refine congrArg₂ List.cons ?_ ih
    apply Fin.ext
    show hexPairVal (toHexByte b) % 256 = b.val
    rw [hexPairVal_toHexByte]
    exact Nat.mod_eq_of_lt b.isLt

theorem splitOnBar_append_bar (a b : List Char) (h : '|' ∉ a) :
    splitOnBar (a ++ '|' :: b) = a :: splitOnBar b := by
  induction a with
  | nil => simp [splitOnBar]
  | cons c a ih =>
    have hc : c ≠ '|' := fun hc => h (hc ▸ List.mem_cons_self c a)
    have ha : '|' ∉ a := fun hm => h (List.mem_cons_of_mem c hm)
    simp only [List.cons_append, splitOnBar, if_neg hc, List.append_eq]
    rw [ih ha]

theorem splitOnBar_no_bar (b : List Char) (h : '|' ∉ b) : splitOnBar b = [b] := by
  induction b with
  | nil => rfl
  | cons c b ih =>
    have hc : c ≠ '|' := fun hc => h (hc ▸ List.mem_cons_self c b)
    have hb : '|' ∉ b := fun hm => h (List.mem_cons_of_mem c hm)
    simp only [splitOnBar, if_neg hc, ih hb]

theorem decrypt_encrypt (encPrim : List Byte → List Byte → List Byte)
    (decPrim : List Byte → List Byte → Option (List Byte))
    (utf8enc : List Char → List Byte) (utf8dec : List Byte → List Char)
    (iv : List Byte) (m : List Char)
    (hgcm : decPrim iv (encPrim iv (utf8enc m)) = some (utf8enc m))
    (hutf : utf8dec (utf8enc m) = m) :
    decrypt decPrim utf8dec (encrypt encPrim utf8enc iv m) = some m := by
  unfold encrypt decrypt
  rw [splitOnBar_append_bar _ _ (bar_not_mem_toHexString iv),
    splitOnBar_no_bar _ (bar_not_mem_toHexString _)]
  simp only [List.map_cons, List.map_nil, fromHexString_toHexString]
  rw [hgcm]
  simp [hutf]

/-- C2: encryption round-trips.  For every payload `m`, decrypting the result
of encrypting `m` under the same passphrase-derived key yields `m` again.
The AES-GCM primitive and the UTF-8 codec are assumed correct at the point of
use (they are external WebCrypto collaborators); everything the source itself
implements — hex coding of nonce and ciphertext, the `|` framing, and the
split/parse on decryption — is proved. -/
theorem C2_encrypt_roundtrip (encPrim : List Byte → List Byte → List Byte)
    (decPrim : List Byte → List Byte → Option (List Byte))
    (utf8enc : List Char → List Byte) (utf8dec : List Byte → List Char)
    (iv : List Byte) (m : List Char)
    (hgcm : decPrim iv (encPrim iv (utf8enc m)) = some (utf8enc m))
    (hutf : utf8dec (utf8enc m) = m) :
    decrypt decPrim utf8dec (encrypt encPrim utf8enc iv m) = some m :=
  decrypt_encrypt encPrim decPrim utf8enc utf8dec iv m hgcm hutf

/-- Witness for C2: a concrete payload, nonce and (trivially correct) cipher
instance. -/
theorem C2_encrypt_roundtrip_witness :
    decrypt (fun _ bs => some bs) (fun bs => bs.map (fun b => Char.ofNat b.val))
      (encrypt (fun _ bs => bs)
        (fun s => s.map (fun c => (⟨c.toNat % 256, Nat.mod_lt _ (by norm_num)⟩ : Byte)))
        [⟨7, by norm_num⟩] ['h', 'i']) = some ['h', 'i'] :=
  C2_encrypt_roundtrip _ _ _ _ _ _ (by decide) (by decide)

theorem takeWhile_append_bar (a b : List Char) (h : '|' ∉ a) :
    (a ++ '|' :: b).takeWhile (fun c => c != '|') = a := by
  induction a with
  | nil => simp [List.takeWhile]
  | cons c a ih =>
    have hc : c ≠ '|' := fun hc => h (hc ▸ List.mem_cons_self c a)
    have ha : '|' ∉ a := fun hm => h (List.mem_cons_of_mem c hm)
    simp only [List.cons_append, List.takeWhile_cons, bne_iff_ne, ne_eq, hc,
      not_false_eq_true, if_true, ih ha]

theorem toHexString_inj (bs1 bs2 : List Byte)
    (h : toHexString bs1 = toHexString bs2) : bs1 = bs2 := by
  have := congrArg fromHexString h
  rwa [fromHexString_toHexString, fromHexString_toHexString] at this

/-- C6: encryption is probabilistic.  The only nondeterminism in
`EncryptionHelper.encrypt` is the 12-byte nonce freshly drawn by
`getRandomValues` on each call; modelling the two draws as explicit inputs,
two calls whose draws differ produce different ciphertexts, and both
ciphertexts decrypt back to `m`. -/
theorem C6_probabilistic_encryption (encPrim : List Byte → List Byte → List Byte)
    (decPrim : List Byte → List Byte → Option (List Byte))
    (utf8enc : List Char → List Byte) (utf8dec : List Byte → List Char)
    (iv1 iv2 : List Byte) (m : List Char) (hne : iv1 ≠ iv2)
    (hgcm1 : decPrim iv1 (encPrim iv1 (utf8enc m)) = some (utf8enc m))
    (hgcm2 : decPrim iv2 (encPrim iv2 (utf8enc m)) = some (utf8enc m))
    (hutf : utf8dec (utf8enc m) = m) :
    encrypt encPrim utf8enc iv1 m ≠ encrypt encPrim utf8enc iv2 m ∧
    decrypt decPrim utf8dec (encrypt encPrim utf8enc iv1 m) = some m ∧
    decrypt decPrim utf8dec (encrypt encPrim utf8enc iv2 m) = some m := by
  refine ⟨?_, decrypt_encrypt _ _ _ _ _ _ hgcm1 hutf, decrypt_encrypt _ _ _ _ _ _ hgcm2 hutf⟩
  intro heq
  apply hne
  apply toHexString_inj
  have h1 := takeWhile_append_bar (toHexString iv1)
    (toHexString (encPrim iv1 (utf8enc m))) (bar_not_mem_toHexString iv1)
  have h2 := takeWhile_append_bar (toHexString iv2)
    (toHexString (encPrim iv2 (utf8enc m))) (bar_not_mem_toHexString iv2)
  unfold encrypt at heq
  rw [← h1, ← h2, heq]

/-- Witness for C6: two concrete distinct nonces for the same payload. -/
theorem C6_probabilistic_encryption_witness :
    encrypt (fun _ bs => bs)
        (fun s => s.map (fun c => (⟨c.toNat % 256, Nat.mod_lt _ (by norm_num)⟩ : Byte)))
        [⟨0, by norm_num⟩] ['h', 'i'] ≠
      encrypt (fun _ bs => bs)
        (fun s => s.map (fun c => (⟨c.toNat % 256, Nat.mod_lt _ (by norm_num)⟩ : Byte)))
        [⟨1, by norm_num⟩] ['h', 'i'] ∧
    decrypt (fun _ bs => some bs) (fun bs => bs.map (fun b => Char.ofNat b.val))
        (encrypt (fun _ bs => bs)
          (fun s => s.map (fun c => (⟨c.toNat % 256, Nat.mod_lt _ (by norm_num)⟩ : Byte)))
          [⟨0, by norm_num⟩] ['h', 'i']) = some ['h', 'i'] ∧
    decrypt (fun _ bs => some bs) (fun bs => bs.map (fun b => Char.ofNat b.val))
        (encrypt (fun _ bs => bs)
          (fun s => s.map (fun c => (⟨c.toNat % 256, Nat.mod_lt _ (by norm_num)⟩ : Byte)))
          [⟨1, by norm_num⟩] ['h', 'i']) = some ['h', 'i'] :=
  C6_probabilistic_encryption _ _ _ _ _ _ _ (by decide) (by decide) (by decide) (by decide)

/-! ### Generic helpers shared by both store variants -/

/-- Decrypted, deserialized field mapping of a logical document.  The JSON
value type is left abstract. -/
abbrev Fields (α : Type) := List (List Char × α)

/-- `Map.set` on an insertion-ordered association list (JS `Map` semantics:
update in place when the key exists, append otherwise). -/
def mapSet {β : Type} (m : List (List Char × β)) (k : List Char) (v : β) :
    List (List Char × β) :=
  if m.any (fun kv => kv.1 == k) then
    m.map (fun kv => if kv.1 == k then (k, v) else kv)
  else m ++ [(k, v)]

/-- JS truthiness of the optional encrypted-data field `d` (`undefined` and
the empty string are falsy, any non-empty string is truthy). -/
def dTruthy : Option (List Char) → Bool
  | some (_ :: _) => true
  | _ => false

theorem dTruthy_some {c : List Char} (h : c ≠ []) : dTruthy (some c) = true := by
  cases c with
  | nil => exact absurd rfl h
  | cons a l => rfl

/-! ### Fireproof-backed variant (src/src/encryptedStore.ts)

`handleChange` (lines 237-296) is the change-classification engine: per
change, a record with (truthy) encrypted data is an update when the stripped
id is in `knownIds` and otherwise a creation that adds it; a record without
data is a deletion when the id is known (removing it) and is ignored
otherwise.  The decryption step `decryptFromEncryptedData` is abstracted into
the oracle `dec` (ciphertext to decrypted fields, `none` on failure). -/

namespace Fireproof

/-- One entry of the array passed to the `subscribe` callback: `{ _id, d? }`. -/
structure Change where
  _id : List Char
  d : Option (List Char)
deriving DecidableEq

/-- A decrypted document as built by `decryptFromEncryptedData`:
`{ _id: id, ...decryptedData }`. -/
structure Doc (α : Type) where
  _id : List Char
  fields : Fields α
deriving DecidableEq

/-- The engine's mutable state: `knownIds` (stripped ids) and `fullIdMap`
(stripped id to full id). -/
structure St where
  knownIds : List (List Char)
  fullIdMap : List (List Char × List Char)
deriving DecidableEq

/-- What `handleChange` does with one change, read off the branch structure
of lines 242-276: push to `newDocs` (and add to the set), push to
`changedDocs`, push to `deletedDocs` (and remove from the set), or skip. -/
inductive Action (α : Type) where
  | skip
  | created (doc : Doc α) (fullId : List Char)
  | updated (doc : Doc α)
  | removedId (id : List Char)
deriving DecidableEq

/-- The branch of `handleChange` taken for a single change.  A parse failure
or a decryption failure is caught and skipped; a change without truthy `d`
for an unknown id is ignored. -/
def classifyChange {α : Type} (dec : List Char → Option (Fields α)) (st : St)
    (ch : Change) : Action α :=
  if dTruthy ch.d then
    match ch.d, parseFullId ch._id with
    | some cdata, some (_ty, id) =>
      match dec cdata with
      | some fs =>
        if id ∈ st.knownIds then Action.updated ⟨id, fs⟩
        else Action.created ⟨id, fs⟩ ch._id
      | none => Action.skip
    | _, _ => Action.skip
  else
    match parseFullId ch._id with
    | some (_ty, id) => if id ∈ st.knownIds then Action.removedId id else Action.skip
    | none => Action.skip

/-- Result of one `handleChange` invocation: final state plus the `newDocs`,
`changedDocs` and `deletedDocs` batches (the latter holds stripped ids). -/
structure HCOut (α : Type) where
  state : St
  added : List (Doc α)
  changed : List (Doc α)
  deleted : List (List Char)
deriving DecidableEq

/-- The `for (const change of changes)` loop of `handleChange`, threading the
set/map state and accumulating the three batches in arrival order. -/
def hcLoop {α : Type} (dec : List Char → Option (Fields α)) (st : St) :
    List Change → HCOut α
  | [] => ⟨st, [], [], []⟩
  | ch :: rest =>
    match classifyChange dec st ch with
    | Action.skip => hcLoop dec st rest
    | Action.created d fid =>
      let out := hcLoop dec ⟨d._id :: st.knownIds, mapSet st.fullIdMap d._id fid⟩ rest
      { out with added := d :: out.added }
    | Action.updated d =>
      let out := hcLoop dec st rest
      { out with changed := d :: out.changed }
    | Action.removedId i =>
      let out := hcLoop dec ⟨st.knownIds.filter (fun x => x != i), st.fullIdMap⟩ rest
      { out with deleted := i :: out.deleted }

/-- Embedding of `EncryptedStore.handleChange`: run the loop, then clean the
`fullIdMap` entries of the deleted ids (lines 291-295). -/
def handleChange {α : Type} (dec : List Char → Option (Fields α)) (st : St)
    (chs : List Change) : HCOut α :=
  let o := hcLoop dec st chs
  { o with
    state := ⟨o.state.knownIds,
      o.state.fullIdMap.filter (fun kv => !(o.deleted.contains kv.1))⟩ }

/-- Embedding of `EncryptedStore.readAllEncrypted` (lines 207-231): walk the
query result, skipping every document whose `_id` does not parse, and build
the `encryptedMap` (stripped id to encrypted data) and `fullIdMap`. -/
def readAllEncrypted (docs : List Change) :
    List (List Char × Option (List Char)) × List (List Char × List Char) :=
  docs.foldl (fun acc doc =>
    match parseFullId doc._id with
    | none => acc
    | some (_ty, id) => (mapSet acc.1 id doc.d, mapSet acc.2 id doc._id)) ([], [])

theorem classifyChange_malformed {α : Type} (dec : List Char → Option (Fields α))
    (st : St) (ch : Change) (h : parseFullId ch._id = none) :
    classifyChange dec st ch = Action.skip := by
  unfold classifyChange
  rcases hd : ch.d with _ | c
  · simp [dTruthy, h]
  · cases c <;> simp [dTruthy, h]

theorem hcLoop_skip {α : Type} (dec : List Char → Option (Fields α)) (st : St)
    (ch : Change) (rest : List Change) (h : classifyChange dec st ch = Action.skip) :
    hcLoop dec st (ch :: rest) = hcLoop dec st rest := by
  simp only [hcLoop, h]

end Fireproof

/-- C1: change classification follows the membership table.  Starting from a
fresh engine (empty known-identity set), the event sequence
present / present / absent / present for a single identity is classified
creation / update / deletion / creation, the known-identity set gaining the
id on each creation and losing it on the deletion; an absent event for an
identity not in the set is ignored and emits nothing. -/
theorem C1_change_classification {α : Type} (dec : List Char → Option (Fields α))
    (fullId table id c1 c2 c4 : List Char) (f1 f2 f4 : Fields α)
    (hparse : parseFullId fullId = some (table, id))
    (h1 : c1 ≠ []) (h2 : c2 ≠ []) (h4 : c4 ≠ [])
    (hd1 : dec c1 = some f1) (hd2 : dec c2 = some f2) (hd4 : dec c4 = some f4) :
    let st0 : Fireproof.St := ⟨[], []⟩
    let r1 := Fireproof.handleChange dec st0 [⟨fullId, some c1⟩]
    let r2 := Fireproof.handleChange dec r1.state [⟨fullId, some c2⟩]
    let r3 := Fireproof.handleChange dec r2.state [⟨fullId, none⟩]
    let r4 := Fireproof.handleChange dec r3.state [⟨fullId, some c4⟩]
    (r1.added = [⟨id, f1⟩] ∧ r1.changed = [] ∧ r1.deleted = [] ∧
      r1.state.knownIds = [id]) ∧
    (r2.added = [] ∧ r2.changed = [⟨id, f2⟩] ∧ r2.deleted = [] ∧
      r2.state.knownIds = [id]) ∧
    (r3.added = [] ∧ r3.changed = [] ∧ r3.deleted = [id] ∧
      r3.state.knownIds = []) ∧
    (r4.added = [⟨id, f4⟩] ∧ r4.changed = [] ∧ r4.deleted = [] ∧
      r4.state.knownIds = [id]) ∧
    Fireproof.handleChange dec st0 [⟨fullId, none⟩] = ⟨st0, [], [], []⟩ := by
  rcases c1 with _ | ⟨a1, t1⟩
  · exact absurd rfl h1
  rcases c2 with _ | ⟨a2, t2⟩
  · exact absurd rfl h2
  rcases c4 with _ | ⟨a4, t4⟩
  · exact absurd rfl h4
  simp [Fireproof.handleChange, Fireproof.hcLoop, Fireproof.classifyChange,
    dTruthy, hparse, hd1, hd2, hd4, mapSet, List.filter]

/-- Witness for C1 at the concrete identity `users_alice` with a concrete
decryption oracle. -/
theorem C1_change_classification_witness :
    let dec : List Char → Option (Fields Nat) := fun _ => some [(['n'], 1)]
    let fullId := ['u', 's', 'e', 'r', 's', '_', 'a', 'l', 'i', 'c', 'e']
    let id := ['a', 'l', 'i', 'c', 'e']
    let st0 : Fireproof.St := ⟨[], []⟩
    let r1 := Fireproof.handleChange dec st0 [⟨fullId, some ['x']⟩]
    let r2 := Fireproof.handleChange dec r1.state [⟨fullId, some ['y']⟩]
    let r3 := Fireproof.handleChange dec r2.state [⟨fullId, none⟩]
    let r4 := Fireproof.handleChange dec r3.state [⟨fullId, some ['z']⟩]
    (r1.added = [⟨id, [(['n'], 1)]⟩] ∧ r1.changed = [] ∧ r1.deleted = [] ∧
      r1.state.knownIds = [id]) ∧
    (r2.added = [] ∧ r2.changed = [⟨id, [(['n'], 1)]⟩] ∧ r2.deleted = [] ∧
      r2.state.knownIds = [id]) ∧
    (r3.added = [] ∧ r3.changed = [] ∧ r3.deleted = [id] ∧
      r3.state.knownIds = []) ∧
    (r4.added = [⟨id, [(['n'], 1)]⟩] ∧ r4.changed = [] ∧ r4.deleted = [] ∧
      r4.state.knownIds = [id]) ∧
    Fireproof.handleChange dec st0 [⟨fullId, none⟩] = ⟨st0, [], [], []⟩ :=
  C1_change_classification (fun _ => some [(['n'], 1)])
    ['u', 's', 'e', 'r', 's', '_', 'a', 'l', 'i', 'c', 'e'] ['u', 's', 'e', 'r', 's']
    ['a', 'l', 'i', 'c', 'e'] ['x'] ['y'] ['z']
    [(['n'], 1)] [(['n'], 1)] [(['n'], 1)] (by decide)
    (by decide) (by decide) (by decide) rfl rfl rfl

/-! ### PouchDB-backed variant (src/unnamed/part_000 lines 1-696)

Database access (`db.get`, `db.allDocs`, revision-addressed `db.get(id,
{rev})`, `db.remove`), `EncryptionHelper.decrypt` under the instance key, and
`JSON.parse` are external collaborators and appear as oracles. -/

namespace Pouch

/-- An encrypted stored document as fetched with `{ conflicts: true }`:
`{ _id, _rev, d?, _conflicts? }` (a missing `_conflicts` is the empty
list). -/
structure CDoc where
  _id : List Char
  _rev : List Char
  d : Option (List Char)
  _conflicts : List (List Char)
deriving DecidableEq

/-- A decrypted logical document `{ _id, _table, ...fields }`. -/
structure PDoc (α : Type) where
  _id : List Char
  _table : List Char
  fields : Fields α
deriving DecidableEq

/-- `row.id.startsWith("_design/")`. -/
def isDesignId (id : List Char) : Bool :=
  id.take 8 == ['_', 'd', 'e', 's', 'i', 'g', 'n', '/']

/-- Embedding of `EncryptedStore.decryptDoc` (lines 667-675): parse the full
id (throw on failure), decrypt the `d` field (`decrypt(undefined)` also
throws), `JSON.parse` the plaintext, and build `{ _id, _table, ...fields }`.
`dec` is `EncryptionHelper.decrypt` with the instance key fixed; `parseJson`
is `JSON.parse`. -/
def decryptDoc {α : Type} (dec : List Char → Option (List Char))
    (parseJson : List Char → Option (Fields α)) (e : CDoc) : Option (PDoc α) :=
  match parseFullId e._id with
  | none => none
  | some (t, i) =>
    match e.d with
    | none => none
    | some c =>
      match dec c with
      | none => none
      | some plain =>
        match parseJson plain with
        | none => none
        | some fs => some ⟨i, t, fs⟩

/-- The decrypted bundle `buildConflictInfo` returns (lines 656-664). -/
structure ConflictInfo (α : Type) where
  docId : List Char
  table : List Char
  id : List Char
  currentRev : List Char
  conflictRevs : List (List Char)
  winner : PDoc α
  losers : List (PDoc α)
deriving DecidableEq

/-- The `for (const rev of conflictRevs)` loop of `buildConflictInfo` (lines
636-650): fetch each conflicting revision (`getRev`), decrypt it
independently, pushing successes onto `losers` and failures onto the error
list as `fullId@rev`; a failure never aborts the loop. -/
def conflictLoop {α : Type} (dec : List Char → Option (List Char))
    (parseJson : List Char → Option (Fields α))
    (getRev : List Char → List Char → Option CDoc) (fullId : List Char) :
    List (List Char) → List (PDoc α) × List (List Char)
  | [] => ([], [])
  | rev :: rest =>
    let p := conflictLoop dec parseJson getRev fullId rest
    match (getRev fullId rev).bind (decryptDoc dec parseJson) with
    | none => (p.1, (fullId ++ '@' :: rev) :: p.2)
    | some dd => (dd :: p.1, p.2)

/-- Embedding of `EncryptedStore.buildConflictInfo` (lines 622-665): parse
the full id (throw on failure, `none`), run the revision loop, and return
the `ConflictInfo` together with the error events reported through
`listener.onError`. -/
def buildConflictInfo {α : Type} (dec : List Char → Option (List Char))
    (parseJson : List Char → Option (Fields α))
    (getRev : List Char → List Char → Option CDoc)
    (fullId currentRev : List Char) (conflictRevs : List (List Char))
    (winnerDoc : PDoc α) : Option (ConflictInfo α × List (List Char)) :=
  match parseFullId fullId with
  | none => none
  | some (t, i) =>
    let p := conflictLoop dec parseJson getRev fullId conflictRevs
    some (⟨fullId, t, i, currentRev, conflictRevs, winnerDoc, p.1⟩, p.2)

/-- Embedding of `EncryptedStore.getConflictInfo` (lines 513-538): fetch the
document with `{ conflicts: true }`; `null` when the fetch fails, when there
are no conflicting revisions, or when anything inside throws (the catch-all
returns `null`). -/
def getConflictInfo {α : Type} (dec : List Char → Option (List Char))
    (parseJson : List Char → Option (Fields α))
    (getRev : List Char → List Char → Option CDoc)
    (dbGet : List Char → Option CDoc) (table id : List Char) :
    Option (ConflictInfo α) :=
  match dbGet (encodeFullId table id) with
  | none => none
  | some e =>
    if e._conflicts.isEmpty then none
    else
      match decryptDoc dec parseJson e with
      | none => none
      | some doc =>
        match buildConflictInfo dec parseJson getRev e._id e._rev e._conflicts doc with
        | none => none
        | some (ci, _) => some ci

/-- Embedding of `EncryptedStore.get` (lines 190-218): fetch and decrypt;
the catch-all turns every failure (missing record, malformed id, decryption
failure) into `null`.  The second component is the list of decryption-error
events reported to the listener during the call (only `buildConflictInfo`
reports any, and only on the success path). -/
def get {α : Type} (dec : List Char → Option (List Char))
    (parseJson : List Char → Option (Fields α))
    (getRev : List Char → List Char → Option CDoc)
    (dbGet : List Char → Option CDoc) (table id : List Char) :
    Option (PDoc α) × List (List Char) :=
  match dbGet (encodeFullId table id) with
  | none => (none, [])
  | some e =>
    match decryptDoc dec parseJson e with
    | none => (none, [])
    | some doc =>
      if e._conflicts.isEmpty then (some doc, [])
      else
        match buildConflictInfo dec parseJson getRev e._id e._rev e._conflicts doc with
        | none => (none, [])
        | some (_, errs) => (some doc, errs)

/-- One row of the `allDocs({ include_docs: true, conflicts: true })`
result. -/
structure Row where
  id : List Char
  doc : Option CDoc
deriving DecidableEq

/-- The row loop of `EncryptedStore.loadAll` (lines 106-163): skip rows
without a document or with a `_design/` id, skip rows without truthy
encrypted data, decrypt the rest, pushing successes onto `docs` and failures
onto `errors`; a document with conflicting revisions additionally yields a
`ConflictInfo`.  Returns `(docs, errors, conflicts)`. -/
def loadAllLoop {α : Type} (dec : List Char → Option (List Char))
    (parseJson : List Char → Option (Fields α))
    (getRev : List Char → List Char → Option CDoc) :
    List Row → List (PDoc α) × List (List Char) × List (ConflictInfo α)
  | [] => ([], [], [])
  | row :: rest =>
    let acc := loadAllLoop dec parseJson getRev rest
    match row.doc with
    | none => acc
    | some ed =>
      if isDesignId row.id then acc
      else if dTruthy ed.d then
        match decryptDoc dec parseJson ed with
        | some doc =>
          if ed._conflicts.isEmpty then (doc :: acc.1, acc.2.1, acc.2.2)
          else
            match buildConflictInfo dec parseJson getRev ed._id ed._rev ed._conflicts doc with
            | some (ci, errs) => (doc :: acc.1, errs ++ acc.2.1, ci :: acc.2.2)
            | none => (doc :: acc.1, ed._id :: acc.2.1, acc.2.2)
        | none => (acc.1, ed._id :: acc.2.1, acc.2.2)
      else acc

/-- One change delivered by the live `changes` feed. -/
structure PChange where
  id : List Char
  deleted : Bool
  doc : Option CDoc
deriving DecidableEq

/-- Listener calls made by one `handleChange` invocation: `onChange` docs,
`onDelete` entries (stripped id, table), `onError` doc ids, `onConflict`
bundles. -/
structure HC (α : Type) where
  changed : List (PDoc α)
  removed : List (List Char × List Char)
  errors : List (List Char)
  conflicts : List (ConflictInfo α)
deriving DecidableEq

/-- Embedding of the PouchDB `EncryptedStore.handleChange` (lines 569-620):
`_design/` ids are skipped; a deleted change (or one without truthy `d`)
fires `onDelete` when the id parses, and is silently dropped otherwise; a
data-bearing change is decrypted, firing `onChange` on success (plus a
conflict bundle when the store reports conflicting revisions) and an
`onError` event on failure. -/
def handleChange {α : Type} (dec : List Char → Option (List Char))
    (parseJson : List Char → Option (Fields α))
    (getRev : List Char → List Char → Option CDoc) (ch : PChange) : HC α :=
  if isDesignId ch.id then ⟨[], [], [], []⟩
  else if ch.deleted || !(match ch.doc with | some ed => dTruthy ed.d | none => false) then
    match parseFullId ch.id with
    | some (t, i) => ⟨[], [(i, t)], [], []⟩
    | none => ⟨[], [], [], []⟩
  else
    match ch.doc with
    | some ed =>
      match decryptDoc dec parseJson ed with
      | some doc =>
        if ed._conflicts.isEmpty then ⟨[doc], [], [], []⟩
        else
          match buildConflictInfo dec parseJson getRev ed._id ed._rev ed._conflicts doc with
          | some (ci, errs) => ⟨[doc], [], errs, [ci]⟩
          | none => ⟨[], [], [ed._id], []⟩
      | none => ⟨[], [], [ed._id], []⟩
    | none => ⟨[], [], [], []⟩

/-- `key.startsWith("_")` as used by `encryptDoc`. -/
def startsWithUnderscore : List Char → Bool
  | '_' :: _ => true
  | _ => false

/-- The field-collection loop of `EncryptedStore.encryptDoc` (lines
677-689): copy every entry of the document whose key does not start with an
underscore, in insertion order. -/
def collectData {α : Type} : Fields α → Fields α
  | [] => []
  | (k, v) :: rest =>
    if startsWithUnderscore k then collectData rest
    else (k, v) :: collectData rest

/-- Embedding of `EncryptedStore.encryptDoc`: serialize the collected
non-underscore fields and encrypt them; the stored document carries only
`_id` and `d`.  `enc` is `EncryptionHelper.encrypt` with the instance key
fixed; `serialize` is `JSON.stringify`. -/
def encryptDoc {α : Type} (enc : List Char → List Char)
    (serialize : Fields α → List Char) (fields : Fields α) (fullId : List Char) : CDoc :=
  ⟨fullId, [], some (enc (serialize (collectData fields))), []⟩

/-- Embedding of `EncryptedStore.put` (lines 166-187): build the composite
key `${table}_${doc._id}` and encrypt the document under it (revision
bookkeeping is external). -/
def put {α : Type} (enc : List Char → List Char) (serialize : Fields α → List Char)
    (table docId : List Char) (fields : Fields α) : CDoc :=
  encryptDoc enc serialize fields (encodeFullId table docId)

/-- The removal loop of `resolveConflict` (lines 503-509): every losing
revision is attempted; a failed `db.remove` is caught and logged
(`console.warn`) and the loop continues.  Returns (attempted, failed). -/
def removalLoop (removeOk : List Char → Bool) :
    List (List Char) → List (List Char) × List (List Char)
  | [] => ([], [])
  | r :: rs =>
    let p := removalLoop removeOk rs
    (r :: p.1, if removeOk r then p.2 else r :: p.2)

/-- Outcome of a `resolveConflict` call: whether the promise resolved
(`ok`), whether the chosen winner was written, and which losing-revision
removals were attempted and failed. -/
structure ResolveOutcome where
  ok : Bool
  winnerWritten : Bool
  attempted : List (List Char)
  failedRemovals : List (List Char)
deriving DecidableEq

/-- Embedding of `EncryptedStore.resolveConflict` (lines 486-510): fetching
the document can throw (propagates, `ok := false`); no conflicting revisions
is an error ("No conflicts found", `ok := false`); otherwise the winner is
written via `put` and every losing revision removal is attempted, failures
being swallowed by the per-revision catch. -/
def resolveConflict (docConflicts : Option (List (List Char)))
    (removeOk : List Char → Bool) : ResolveOutcome :=
  match docConflicts with
  | none => ⟨false, false, [], []⟩
  | some [] => ⟨false, false, [], []⟩
  | some revs =>
    let p := removalLoop removeOk revs
    ⟨true, true, p.1, p.2⟩

end Pouch

/-! ### Conflict surfacing and resolution (C4, C5) -/

theorem removalLoop_attempted (removeOk : List Char → Bool) (l : List (List Char)) :
    (Pouch.removalLoop removeOk l).1 = l := by
  induction l with
  | nil => rfl
  | cons r rs ih => simp [Pouch.removalLoop, ih]

/-- Counterexample to C4 as stated: with one losing revision whose removal
fails, `resolveConflict` nevertheless resolves successfully — the removal
error is caught by the per-revision `catch` and only logged, never
propagated to the caller. -/
theorem C4_resolve_counterexample :
    (Pouch.resolveConflict (some [['r']]) (fun _ => false)).failedRemovals = [['r']] ∧
    (Pouch.resolveConflict (some [['r']]) (fun _ => false)).ok = true := by
  decide

/-- C4 (amended): `resolveConflict` swallows losing-revision removal
failures.  Each failed `db.remove` is caught and logged, every remaining
removal is still attempted (all reported revisions are attempted, in order),
the call itself succeeds, and the write of the chosen winner stands. -/
theorem C4_resolve_swallows_removal_failures (revs : List (List Char))
    (removeOk : List Char → Bool) (hne : revs ≠ []) :
    (Pouch.resolveConflict (some revs) removeOk).ok = true ∧
    (Pouch.resolveConflict (some revs) removeOk).winnerWritten = true ∧
    (Pouch.resolveConflict (some revs) removeOk).attempted = revs := by
  rcases revs with _ | ⟨r, rs⟩
  · exact absurd rfl hne
  · exact ⟨rfl, rfl, removalLoop_attempted removeOk (r :: rs)⟩

/-- Witness for the amended C4 at a concrete conflict with one failing and
one succeeding removal. -/
theorem C4_resolve_swallows_removal_failures_witness :
    (Pouch.resolveConflict (some [['a'], ['b']]) (fun r => r == ['b'])).ok = true ∧
    (Pouch.resolveConflict (some [['a'], ['b']]) (fun r => r == ['b'])).winnerWritten = true ∧
    (Pouch.resolveConflict (some [['a'], ['b']]) (fun r => r == ['b'])).attempted =
      [['a'], ['b']] :=
  C4_resolve_swallows_removal_failures [['a'], ['b']] (fun r => r == ['b']) (by decide)

theorem conflictLoop_spec {α : Type} (dec : List Char → Option (List Char))
    (parseJson : List Char → Option (Fields α))
    (getRev : List Char → List Char → Option Pouch.CDoc)
    (fullId : List Char) (revs : List (List Char)) :
    Pouch.conflictLoop dec parseJson getRev fullId revs =
      (revs.filterMap (fun rev => (getRev fullId rev).bind (Pouch.decryptDoc dec parseJson)),
       (revs.filter
          (fun rev => ((getRev fullId rev).bind (Pouch.decryptDoc dec parseJson)).isNone)).map
         (fun rev => fullId ++ '@' :: rev)) := by
  induction revs with
  | nil => rfl
  | cons rev rest ih =>
    simp only [Pouch.conflictLoop, ih, List.filterMap_cons, List.filter_cons]
    cases h : (getRev fullId rev).bind (Pouch.decryptDoc dec parseJson) <;> simp [h]

theorem conflictLoop_length {α : Type} (dec : List Char → Option (List Char))
    (parseJson : List Char → Option (Fields α))
    (getRev : List Char → List Char → Option Pouch.CDoc)
    (fullId : List Char) (revs : List (List Char)) :
    (Pouch.conflictLoop dec parseJson getRev fullId revs).1.length +
      (Pouch.conflictLoop dec parseJson getRev fullId revs).2.length = revs.length := by
  induction revs with
  | nil => rfl
  | cons rev rest ih =>
    simp only [Pouch.conflictLoop]
    cases h : (getRev fullId rev).bind (Pouch.decryptDoc dec parseJson) <;>
      simp only [h, List.length_cons] <;> omega

theorem decryptDoc_parse {α : Type} (dec : List Char → Option (List Char))
    (parseJson : List Char → Option (Fields α)) (e : Pouch.CDoc) (w : Pouch.PDoc α)
    (h : Pouch.decryptDoc dec parseJson e = some w) :
    parseFullId e._id = some (w._table, w._id) := by
  unfold Pouch.decryptDoc at h
  split at h
  · exact absurd h (by simp)
  rename_i t i hp
  split at h
  · exact absurd h (by simp)
  rename_i c hd
  split at h
  · exact absurd h (by simp)
  rename_i plain hdc
  split at h
  · exact absurd h (by simp)
  rename_i fs hpj
  obtain rfl := Option.some.inj h
  exact hp

/-- C5: conflict surfacing partitions revisions.  `buildConflictInfo` always
returns a report when the key parses: the losers are exactly the
conflicting revisions that fetch and decrypt, each failing revision is
reported as its own `fullId@rev` decryption failure, the two lists partition
the conflicting revisions (lengths add up — so two decryptable conflicting
revisions give exactly two losers), and `getConflictInfo` names the
store-designated current revision and its decrypted document as the
winner.  A revision-level failure never makes the result `none`. -/
theorem C5_conflict_surfacing {α : Type} (dec : List Char → Option (List Char))
    (parseJson : List Char → Option (Fields α))
    (getRev : List Char → List Char → Option Pouch.CDoc)
    (dbGet : List Char → Option Pouch.CDoc) :
    (∀ (fullId currentRev t i : List Char) (revs : List (List Char)) (w : Pouch.PDoc α),
      parseFullId fullId = some (t, i) →
      Pouch.buildConflictInfo dec parseJson getRev fullId currentRev revs w =
        some (⟨fullId, t, i, currentRev, revs, w,
          revs.filterMap
            (fun rev => (getRev fullId rev).bind (Pouch.decryptDoc dec parseJson))⟩,
          (revs.filter (fun rev =>
            ((getRev fullId rev).bind (Pouch.decryptDoc dec parseJson)).isNone)).map
            (fun rev => fullId ++ '@' :: rev))) ∧
    (∀ (fullId currentRev : List Char) (revs : List (List Char)) (w : Pouch.PDoc α)
      (info : Pouch.ConflictInfo α) (errs : List (List Char)),
      Pouch.buildConflictInfo dec parseJson getRev fullId currentRev revs w =
        some (info, errs) →
      info.losers.length + errs.length = revs.length) ∧
    (∀ (table id : List Char) (e : Pouch.CDoc) (w : Pouch.PDoc α),
      dbGet (encodeFullId table id) = some e → e._conflicts ≠ [] →
      Pouch.decryptDoc dec parseJson e = some w →
      ∃ info : Pouch.ConflictInfo α,
        Pouch.getConflictInfo dec parseJson getRev dbGet table id = some info ∧
        info.winner = w ∧ info.currentRev = e._rev ∧
        info.conflictRevs = e._conflicts) := by
  refine ⟨?_, ?_, ?_⟩
  · intro fullId currentRev t i revs w hp
    unfold Pouch.buildConflictInfo
    rw [hp, conflictLoop_spec]
  · intro fullId currentRev revs w info errs h
    unfold Pouch.buildConflictInfo at h
    rcases hp : parseFullId fullId with _ | ⟨t, i⟩ <;> rw [hp] at h
    · exact absurd h (by simp)
    · obtain ⟨h1, h2⟩ := Prod.mk.injEq .. ▸ Option.some.inj h
      have hlen := conflictLoop_length dec parseJson getRev fullId revs
      have hlos : info.losers = (Pouch.conflictLoop dec parseJson getRev fullId revs).1 := by
        rw [← h1]
      rw [hlos, ← h2]
      exact hlen
  · intro table id e w hget hconf hdec
    have hp := decryptDoc_parse dec parseJson e w hdec
    refine ⟨⟨e._id, w._table, w._id, e._rev, e._conflicts, w,
      e._conflicts.filterMap
        (fun rev => (getRev e._id rev).bind (Pouch.decryptDoc dec parseJson))⟩, ?_, rfl, rfl, rfl⟩
    have hne : e._conflicts.isEmpty = false := by
      cases hcc : e._conflicts with
      | nil => rw [hcc] at hconf; exact absurd rfl hconf
      | cons a l => rfl
    unfold Pouch.getConflictInfo
    simp only [hget, hne, Bool.false_eq_true, if_false, hdec]
    unfold Pouch.buildConflictInfo
    simp only [hp, conflictLoop_spec]

/-- Witness for C5: a concrete conflict with one decryptable and one broken
losing revision (plus a two-decryptable-losers instance in the first
conjunct's arguments via the length equation). -/
theorem C5_conflict_surfacing_witness :
    ∃ info : Pouch.ConflictInfo Nat,
      Pouch.getConflictInfo (fun c => if c = ['g'] then some ['p'] else none)
        (fun _ => some [(['n'], 1)])
        (fun _ rev => if rev = ['r', '1'] then some ⟨['t', '_', 'x'], ['r', '1'], some ['g'], []⟩
          else some ⟨['t', '_', 'x'], ['r', '2'], some ['b'], []⟩)
        (fun _ => some ⟨['t', '_', 'x'], ['r', '9'], some ['g'], [['r', '1'], ['r', '2']]⟩)
        ['t'] ['x'] = some info ∧
      info.winner = ⟨['x'], ['t'], [(['n'], 1)]⟩ ∧ info.currentRev = ['r', '9'] ∧
      info.conflictRevs = [['r', '1'], ['r', '2']] :=
  (C5_conflict_surfacing _ _ _ _).2.2 ['t'] ['x']
    ⟨['t', '_', 'x'], ['r', '9'], some ['g'], [['r', '1'], ['r', '2']]⟩
    ⟨['x'], ['t'], [(['n'], 1)]⟩ rfl (by decide) rfl

/-! ### `get` failure behaviour (C9) and field filtering on `put` (C10) -/

/-- C9: `get(table, id)` returns `null` not only when no record exists under
the composite key but also when the stored record fails to decrypt (wrong
key, corrupted ciphertext, unparsable id — everything `decryptDoc` throws
on); in those failure cases nothing is thrown and no decryption-failure
event is reported to the listener. -/
theorem C9_get_silent_null {α : Type} (dec : List Char → Option (List Char))
    (parseJson : List Char → Option (Fields α))
    (getRev : List Char → List Char → Option Pouch.CDoc)
    (dbGet : List Char → Option Pouch.CDoc) (table id : List Char) :
    (dbGet (encodeFullId table id) = none →
      Pouch.get dec parseJson getRev dbGet table id = (none, [])) ∧
    (∀ e : Pouch.CDoc, dbGet (encodeFullId table id) = some e →
      Pouch.decryptDoc dec parseJson e = none →
      Pouch.get dec parseJson getRev dbGet table id = (none, [])) := by
  constructor
  · intro h
    unfold Pouch.get
    simp only [h]
  · intro e he hd
    unfold Pouch.get
    simp only [he, hd]

/-- Witness for C9: a stored record whose ciphertext fails to decrypt is
read back as `null` with no error event. -/
theorem C9_get_silent_null_witness :
    Pouch.get (fun _ => none) (fun _ => (some [] : Option (Fields Nat)))
      (fun _ _ => none) (fun _ => some ⟨['t', '_', 'x'], ['r'], some ['c'], []⟩)
      ['t'] ['x'] = (none, []) :=
  (C9_get_silent_null _ _ _ _ ['t'] ['x']).2 ⟨['t', '_', 'x'], ['r'], some ['c'], []⟩ rfl rfl

theorem collectData_eq_filter {α : Type} (fields : Fields α) :
    Pouch.collectData fields =
      fields.filter (fun kv => !Pouch.startsWithUnderscore kv.1) := by
  induction fields with
  | nil => rfl
  | cons kv rest ih =>
    obtain ⟨k, v⟩ := kv
    simp only [Pouch.collectData, List.filter_cons]
    cases h : Pouch.startsWithUnderscore k <;> simp [h, ih]

theorem mem_collectData {α : Type} (fields : Fields α) (k : List Char) (v : α) :
    (k, v) ∈ Pouch.collectData fields ↔
      (k, v) ∈ fields ∧ Pouch.startsWithUnderscore k = false := by
  rw [collectData_eq_filter, List.mem_filter]
  simp

/-- C10: `put` discards every field whose name begins with an underscore
before encryption — the encrypted payload carries exactly the fields of the
input document whose names do not start with `_` — so a subsequent `get`
returns the document without any caller-supplied underscore-prefixed
field. -/
theorem C10_put_drops_underscore_fields {α : Type} (enc : List Char → List Char)
    (serialize : Fields α → List Char) (dec : List Char → Option (List Char))
    (parseJson : List Char → Option (Fields α)) (table docId : List Char)
    (fields : Fields α) (htable : '_' ∉ table)
    (hdec : dec (enc (serialize (Pouch.collectData fields))) =
      some (serialize (Pouch.collectData fields)))
    (hjson : parseJson (serialize (Pouch.collectData fields)) =
      some (Pouch.collectData fields)) :
    (∀ (k : List Char) (v : α), (k, v) ∈ Pouch.collectData fields ↔
      (k, v) ∈ fields ∧ Pouch.startsWithUnderscore k = false) ∧
    Pouch.get dec parseJson (fun _ _ => none)
      (fun key => if key = encodeFullId table docId
        then some (Pouch.put enc serialize table docId fields) else none)
      table docId = (some ⟨docId, table, Pouch.collectData fields⟩, []) := by
  refine ⟨fun k v => mem_collectData fields k v, ?_⟩
  have hkey : (fun key => if key = encodeFullId table docId
      then some (Pouch.put enc serialize table docId fields) else none)
      (encodeFullId table docId) = some (Pouch.put enc serialize table docId fields) := by
    simp
  unfold Pouch.get
  simp only [hkey]
  unfold Pouch.put Pouch.encryptDoc Pouch.decryptDoc
  simp only [parseFullId_encode table docId htable, hdec, hjson,
    List.isEmpty_nil, if_true]

/-- Witness for C10: a concrete document carrying a caller-supplied
underscore field that is dropped by `put` and absent from the read-back. -/
theorem C10_put_drops_underscore_fields_witness :
    (∀ (k : List Char) (v : Nat),
      (k, v) ∈ Pouch.collectData [(['_', 'i', 'd'], 0), (['n'], 1)] ↔
      (k, v) ∈ [(['_', 'i', 'd'], 0), (['n'], 1)] ∧
        Pouch.startsWithUnderscore k = false) ∧
    Pouch.get (fun s => some s) (fun _ => some [(['n'], 1)]) (fun _ _ => none)
      (fun key => if key = encodeFullId ['t'] ['x']
        then some (Pouch.put (fun s => s) (fun _ => ['s']) ['t'] ['x']
          [(['_', 'i', 'd'], 0), (['n'], 1)])
        else none)
      ['t'] ['x'] = (some ⟨['x'], ['t'], Pouch.collectData [(['_', 'i', 'd'], 0), (['n'], 1)]⟩, []) :=
  C10_put_drops_underscore_fields (fun s => s) (fun _ => ['s']) (fun s => some s)
    (fun _ => some [(['n'], 1)]) ['t'] ['x'] [(['_', 'i', 'd'], 0), (['n'], 1)]
    (by decide) rfl (by decide)

/-! ### Malformed-key handling (C3) -/

theorem hcLoop_malformed {α : Type} (dec : List Char → Option (Fields α))
    (bad : Fireproof.Change) (hbad : parseFullId bad._id = none)
    (post : List Fireproof.Change) (pre : List Fireproof.Change) :
    ∀ st : Fireproof.St,
      Fireproof.hcLoop dec st (pre ++ bad :: post) =
        Fireproof.hcLoop dec st (pre ++ post) := by
  induction pre with
  | nil =>
    intro st
    rw [List.nil_append, List.nil_append]
    exact Fireproof.hcLoop_skip dec st bad post
      (Fireproof.classifyChange_malformed dec st bad hbad)
  | cons ch pre ih =>
    intro st
    simp only [List.cons_append, Fireproof.hcLoop]
    cases hcl : Fireproof.classifyChange dec st ch <;> simp only [List.append_eq, ih]

theorem handleChange_malformed {α : Type} (dec : List Char → Option (Fields α))
    (st : Fireproof.St) (pre post : List Fireproof.Change) (bad : Fireproof.Change)
    (hbad : parseFullId bad._id = none) :
    Fireproof.handleChange dec st (pre ++ bad :: post) =
      Fireproof.handleChange dec st (pre ++ post) := by
  unfold Fireproof.handleChange
  rw [hcLoop_malformed dec bad hbad post pre st]

theorem readAllEncrypted_malformed (pre post : List Fireproof.Change)
    (bad : Fireproof.Change) (hbad : parseFullId bad._id = none) :
    Fireproof.readAllEncrypted (pre ++ bad :: post) =
      Fireproof.readAllEncrypted (pre ++ post) := by
  unfold Fireproof.readAllEncrypted
  rw [List.foldl_append, List.foldl_append, List.foldl_cons]
  congr 1
  simp only [hbad]

theorem loadAllLoop_malformed {α : Type} (pdec : List Char → Option (List Char))
    (parseJson : List Char → Option (Fields α))
    (getRev : List Char → List Char → Option Pouch.CDoc)
    (row : Pouch.Row) (ed : Pouch.CDoc) (rest : List Pouch.Row)
    (hdoc : row.doc = some ed) (hdesign : Pouch.isDesignId row.id = false)
    (htruthy : dTruthy ed.d = true) (hbad : parseFullId ed._id = none) :
    Pouch.loadAllLoop pdec parseJson getRev (row :: rest) =
      ((Pouch.loadAllLoop pdec parseJson getRev rest).1,
       ed._id :: (Pouch.loadAllLoop pdec parseJson getRev rest).2.1,
       (Pouch.loadAllLoop pdec parseJson getRev rest).2.2) := by
  have hdd : Pouch.decryptDoc pdec parseJson ed = none := by
    unfold Pouch.decryptDoc
    simp only [hbad]
  simp only [Pouch.loadAllLoop, hdoc, hdesign, htruthy, hdd,
    Bool.false_eq_true, if_false, if_true]

/-- C3 (amended): a record whose storage key contains no underscore is never
classified and never appears in any success batch.  In the Fireproof variant
(src/src/encryptedStore.ts) it is silently excluded: deleting it from the
input of `readAllEncrypted` or of `handleChange` changes nothing, and no
channel reports it.  In the PouchDB variant (src/unnamed/part_000), however,
a ciphertext-bearing record with a malformed key IS reported through the
error channel, both during load and during live-change handling, because
`decryptDoc` throws on the unparsable id; only the deletion path of the live
feed drops malformed keys silently. -/
theorem C3_malformed_key_handling {α : Type} (dec : List Char → Option (Fields α))
    (pdec : List Char → Option (List Char)) (parseJson : List Char → Option (Fields α))
    (getRev : List Char → List Char → Option Pouch.CDoc) :
    (∀ (st : Fireproof.St) (pre post : List Fireproof.Change) (bad : Fireproof.Change),
      parseFullId bad._id = none →
      Fireproof.handleChange dec st (pre ++ bad :: post) =
        Fireproof.handleChange dec st (pre ++ post)) ∧
    (∀ (pre post : List Fireproof.Change) (bad : Fireproof.Change),
      parseFullId bad._id = none →
      Fireproof.readAllEncrypted (pre ++ bad :: post) =
        Fireproof.readAllEncrypted (pre ++ post)) ∧
    (∀ (row : Pouch.Row) (ed : Pouch.CDoc) (rest : List Pouch.Row),
      row.doc = some ed → Pouch.isDesignId row.id = false → dTruthy ed.d = true →
      parseFullId ed._id = none →
      Pouch.loadAllLoop pdec parseJson getRev (row :: rest) =
        ((Pouch.loadAllLoop pdec parseJson getRev rest).1,
         ed._id :: (Pouch.loadAllLoop pdec parseJson getRev rest).2.1,
         (Pouch.loadAllLoop pdec parseJson getRev rest).2.2)) ∧
    (∀ (ch : Pouch.PChange) (ed : Pouch.CDoc),
      ch.doc = some ed → Pouch.isDesignId ch.id = false → ch.deleted = false →
      dTruthy ed.d = true → parseFullId ed._id = none →
      Pouch.handleChange pdec parseJson getRev ch = ⟨[], [], [ed._id], []⟩) ∧
    (∀ ch : Pouch.PChange, Pouch.isDesignId ch.id = false → ch.deleted = true →
      parseFullId ch.id = none →
      Pouch.handleChange pdec parseJson getRev ch = ⟨[], [], [], []⟩) := by
  refine ⟨fun st pre post bad hbad => handleChange_malformed dec st pre post bad hbad,
    fun pre post bad hbad => readAllEncrypted_malformed pre post bad hbad,
    fun row ed rest hdoc hdesign ht hbad =>
      loadAllLoop_malformed pdec parseJson getRev row ed rest hdoc hdesign ht hbad,
    ?_, ?_⟩
  · intro ch ed hdoc hdesign hdel ht hbad
    have hdd : Pouch.decryptDoc pdec parseJson ed = none := by
      unfold Pouch.decryptDoc
      simp only [hbad]
    unfold Pouch.handleChange
    simp only [hdoc, hdesign, hdel, ht, hdd, Bool.false_eq_true, if_false,
      Bool.not_true, Bool.or_false]
  · intro ch hdesign hdel hbad
    unfold Pouch.handleChange
    simp only [hdesign, hdel, hbad, Bool.false_eq_true, if_false, Bool.true_or]
    rw [if_pos trivial]

/-- Counterexample to C3 as stated: in the PouchDB `loadAll`, a
ciphertext-bearing record whose key `nokey` has no underscore is reported
through the error/failure channel (its id lands in the `errors` batch),
contradicting "not reported through the error/failure channel". -/
theorem C3_malformed_key_counterexample :
    (Pouch.loadAllLoop (fun _ => none) (fun _ => some ([] : Fields Nat)) (fun _ _ => none)
      [⟨['n', 'o', 'k', 'e', 'y'],
        some ⟨['n', 'o', 'k', 'e', 'y'], ['r'], some ['x'], []⟩⟩]).2.1 =
      [['n', 'o', 'k', 'e', 'y']] := by
  decide

/-- Witness for the amended C3: a concrete malformed-key change is dropped
by the Fireproof `handleChange`, and a concrete malformed-key row is
reported as an error by the PouchDB load loop. -/
theorem C3_malformed_key_handling_witness :
    Fireproof.handleChange (fun _ => some ([] : Fields Nat)) ⟨[], []⟩
        ([] ++ (⟨['b', 'a', 'd'], some ['x']⟩ : Fireproof.Change) :: []) =
      Fireproof.handleChange (fun _ => some ([] : Fields Nat)) ⟨[], []⟩ ([] ++ []) ∧
    Pouch.loadAllLoop (fun _ => none) (fun _ => some ([] : Fields Nat)) (fun _ _ => none)
        ((⟨['b', 'a', 'd'], some ⟨['b', 'a', 'd'], ['r'], some ['x'], []⟩⟩ : Pouch.Row) :: []) =
      ((Pouch.loadAllLoop (fun _ => none) (fun _ => some ([] : Fields Nat))
          (fun _ _ => none) []).1,
       ['b', 'a', 'd'] :: (Pouch.loadAllLoop (fun _ => none)
          (fun _ => some ([] : Fields Nat)) (fun _ _ => none) []).2.1,
       (Pouch.loadAllLoop (fun _ => none) (fun _ => some ([] : Fields Nat))
          (fun _ _ => none) []).2.2) :=
  ⟨(C3_malformed_key_handling (fun _ => some ([] : Fields Nat)) (fun _ => none)
      (fun _ => some ([] : Fields Nat)) (fun _ _ => none)).1 ⟨[], []⟩ [] []
      ⟨['b', 'a', 'd'], some ['x']⟩ (by decide),
   (C3_malformed_key_handling (fun _ => some ([] : Fields Nat)) (fun _ => none)
      (fun _ => some ([] : Fields Nat)) (fun _ _ => none)).2.2.1
      ⟨['b', 'a', 'd'], some ⟨['b', 'a', 'd'], ['r'], some ['x'], []⟩⟩
      ⟨['b', 'a', 'd'], ['r'], some ['x'], []⟩ [] rfl rfl rfl (by decide)⟩

/-! ### Key derivation memoization (C8)

The store is single-threaded with cooperative scheduling: execution only
interleaves at `await` points.  A caller of `getKey` is modelled as a
sequence of atomic segments separated by its awaits, and a schedule as the
order in which segments of different callers run. -/

namespace KeyOnce

/-- Memoization state of an `EncryptionHelper` instance: the cached
`keyPromise`, how many times the underlying derivation primitive has
executed, and a supply of fresh promise identities. -/
structure DState where
  keyPromise : Option Nat
  derivations : Nat
  fresh : Nat
deriving DecidableEq

/-- One caller of the derive/raw-mode `getKey` (src/unnamed/part_000 lines
1398-1452).  The null-check of `this.keyPromise` and the assignment
`this.keyPromise = (async () => ...)()` happen in the same synchronous
segment — the async IIFE is constructed and assigned before any suspension —
so the whole call is one atomic step, and the derivation inside the promise
body runs exactly once per promise created. -/
def dGetKey (s : DState) : DState × Nat :=
  match s.keyPromise with
  | some k => (s, k)
  | none => (⟨some s.fresh, s.derivations + 1, s.fresh + 1⟩, s.fresh)

/-- Run `n` callers of the derive/raw `getKey`.  Each call being atomic,
every interleaving of `n` identical callers is the same as running them
sequentially, so this covers all schedules. -/
def dRun (s : DState) : Nat → DState × List Nat
  | 0 => (s, [])
  | n + 1 =>
    let p := dGetKey s
    let q := dRun p.1 n
    (q.1, p.2 :: q.2)

/-- A freshly constructed helper: no promise, no derivations yet. -/
def dInit : DState := ⟨none, 0, 0⟩

/-- Progress of one caller of the SHA-256-only `getKey` (src/unnamed/
part_000 lines 1267-1283): `start` before the null-check, `pending` while
suspended at `await subtle.digest`, `done k` once it returned promise `k`. -/
inductive Phase where
  | start
  | pending
  | done (k : Nat)
deriving DecidableEq

/-- State of the SHA-256-only helper with two concurrent callers. -/
structure SState where
  keyPromise : Option Nat
  digests : Nat
  fresh : Nat
  c1 : Phase
  c2 : Phase
deriving DecidableEq

/-- One atomic segment of one SHA-256-variant caller.  From `start` the
synchronous prefix checks `keyPromise`: if cached, the caller immediately
finishes with it; otherwise it starts the digest and suspends.  From
`pending` the digest has completed (one more execution of the primitive) and
only then is `this.keyPromise` assigned the fresh `importKey` promise, which
the caller returns — without re-checking whether another caller assigned it
meanwhile. -/
def sStepPhase (kp : Option Nat) (digests fresh : Nat) (p : Phase) :
    Option Nat × Nat × Nat × Phase :=
  match p with
  | Phase.start =>
    match kp with
    | some k => (kp, digests, fresh, Phase.done k)
    | none => (kp, digests, fresh, Phase.pending)
  | Phase.pending => (some fresh, digests + 1, fresh + 1, Phase.done fresh)
  | Phase.done k => (kp, digests, fresh, Phase.done k)

/-- Advance caller 1 (`true`) or caller 2 (`false`) by one segment. -/
def sStep (s : SState) (which : Bool) : SState :=
  if which then
    let r := sStepPhase s.keyPromise s.digests s.fresh s.c1
    ⟨r.1, r.2.1, r.2.2.1, r.2.2.2, s.c2⟩
  else
    let r := sStepPhase s.keyPromise s.digests s.fresh s.c2
    ⟨r.1, r.2.1, r.2.2.1, s.c1, r.2.2.2⟩

/-- Execute a schedule of caller segments. -/
def sRun (s : SState) (sched : List Bool) : SState :=
  sched.foldl sStep s

/-- A freshly constructed helper with both callers about to enter
`getKey`. -/
def sInit : SState := ⟨none, 0, 0, Phase.start, Phase.start⟩

end KeyOnce

theorem dRun_cached (k : Nat) (s : KeyOnce.DState) (hs : s.keyPromise = some k)
    (n : Nat) : KeyOnce.dRun s n = (s, List.replicate n k) := by
  induction n with
  | zero => rfl
  | succ n ih =>
    have hg : KeyOnce.dGetKey s = (s, k) := by
      unfold KeyOnce.dGetKey
      rw [hs]
    simp only [KeyOnce.dRun, hg, ih, List.replicate_succ]

/-- C8 (amended): in the derive/raw-mode `EncryptionHelper`, `keyPromise` is
assigned in the same synchronous segment as the null-check, so under every
schedule of `n` early callers the derivation primitive runs at most once and
all callers receive the single same key promise.  In the SHA-256-only
variant, `keyPromise` is assigned only after `await digest`, so two callers
that both pass the null-check before the first assignment each execute the
digest: the schedule start1/start2/resume1/resume2 runs the primitive twice
and hands the two callers different key promises. -/
theorem C8_key_derivation_memoized :
    (∀ n : Nat, (KeyOnce.dRun KeyOnce.dInit n).1.derivations ≤ 1 ∧
      (KeyOnce.dRun KeyOnce.dInit n).2 = List.replicate n 0) ∧
    ((KeyOnce.sRun KeyOnce.sInit [true, false, true, false]).digests = 2 ∧
      (KeyOnce.sRun KeyOnce.sInit [true, false, true, false]).c1 = KeyOnce.Phase.done 0 ∧
      (KeyOnce.sRun KeyOnce.sInit [true, false, true, false]).c2 = KeyOnce.Phase.done 1) := by
  constructor
  · intro n
    cases n with
    | zero => exact ⟨by decide, rfl⟩
    | succ n =>
      have h1 : KeyOnce.dGetKey KeyOnce.dInit = (⟨some 0, 1, 1⟩, 0) := rfl
      have h2 := dRun_cached 0 ⟨some 0, 1, 1⟩ rfl n
      constructor
      · simp only [KeyOnce.dRun, h1, h2]
        exact le_refl 1
      · simp only [KeyOnce.dRun, h1, h2, List.replicate_succ]
  · exact ⟨rfl, rfl, rfl⟩

/-- Counterexample to C8 as stated: in the SHA-256-only `getKey`, the
interleaving in which both callers pass the null-check before either
assignment executes the digest primitive twice and leaves the two callers
holding different key promises. -/
theorem C8_key_derivation_counterexample :
    (KeyOnce.sRun KeyOnce.sInit [true, false, true, false]).digests = 2 ∧
    (KeyOnce.sRun KeyOnce.sInit [true, false, true, false]).c1 ≠
      (KeyOnce.sRun KeyOnce.sInit [true, false, true, false]).c2 := by
  decide

end EncStore
